import Mathlib

/-!
Verification of the `merkle` Go package (flat-array Merkle tree).

Modelling conventions:
* Go byte slices and Go strings are both modelled as `List Nat` of byte
  values (every string handled by the package is ASCII, so its UTF-8 byte
  sequence is exactly its character codes).
* `crypto/sha256.Sum256` from the Go standard library is modelled by a
  direct implementation of FIPS 180-4 SHA-256 over byte lists, with 32-bit
  words represented as `Nat` reduced modulo `2 ^ 32`.
* `encoding/hex.EncodeToString` is modelled by `hexBytes`, producing the
  ASCII codes of the lowercase hex encoding.
* Go `int` is modelled as `Int` where the source value can be negative
  (proof indices) and as `Nat` where the source only ever produces
  non-negative values (lengths, array indices).  Go's `%` and `/` on `int`
  truncate towards zero, which is `Int.tmod` and `Int.tdiv`.
-/

namespace Merkle

set_option maxRecDepth 1000000

/-- One round of `x >>> n ||| x <<< (32 - n)` on 32-bit words (rotate right). -/
def rotr (n x : Nat) : Nat :=
  ((x >>> n) ||| (x <<< (32 - n))) % 4294967296

/-- FIPS 180-4 big sigma 0. -/
def bsig0 (x : Nat) : Nat := (rotr 2 x) ^^^ (rotr 13 x) ^^^ (rotr 22 x)

/-- FIPS 180-4 big sigma 1. -/
def bsig1 (x : Nat) : Nat := (rotr 6 x) ^^^ (rotr 11 x) ^^^ (rotr 25 x)

/-- FIPS 180-4 small sigma 0. -/
def ssig0 (x : Nat) : Nat := (rotr 7 x) ^^^ (rotr 18 x) ^^^ (x >>> 3)

/-- FIPS 180-4 small sigma 1. -/
def ssig1 (x : Nat) : Nat := (rotr 17 x) ^^^ (rotr 19 x) ^^^ (x >>> 10)

/-- FIPS 180-4 choice function; negation is xor with the 32-bit mask. -/
def chF (x y z : Nat) : Nat := (x &&& y) ^^^ ((x ^^^ 4294967295) &&& z)

/-- FIPS 180-4 majority function. -/
def majF (x y z : Nat) : Nat := (x &&& y) ^^^ (x &&& z) ^^^ (y &&& z)

/-- The 64 SHA-256 round constants. -/
def sha256K : List Nat :=
  [1116352408, 1899447441, 3049323471, 3921009573, 961987163,
   1508970993, 2453635748, 2870763221, 3624381080, 310598401,
   607225278, 1426881987, 1925078388, 2162078206, 2614888103,
   3248222580, 3835390401, 4022224774, 264347078, 604807628,
   770255983, 1249150122, 1555081692, 1996064986, 2554220882,
   2821834349, 2952996808, 3210313671, 3336571891, 3584528711,
   113926993, 338241895, 666307205, 773529912, 1294757372,
   1396182291, 1695183700, 1986661051, 2177026350, 2456956037,
   2730485921, 2820302411, 3259730800, 3345764771, 3516065817,
   3600352804, 4094571909, 275423344, 430227734, 506948616,
   659060556, 883997877, 958139571, 1322822218, 1537002063,
   1747873779, 1955562222, 2024104815, 2227730452, 2361852424,
   2428436474, 2756734187, 3204031479, 3329325298]

/-- Big-endian bytes (`k` of them) of a natural number. -/
def beBytes : Nat → Nat → List Nat
  | 0, _ => []
  | k + 1, v => beBytes k (v >>> 8) ++ [v &&& 255]

/-- Group a byte list into `k` big-endian 32-bit words. -/
def toWords : Nat → List Nat → List Nat
  | 0, _ => []
  | k + 1, bs =>
      ((bs.getD 0 0) * 16777216 + (bs.getD 1 0) * 65536 + (bs.getD 2 0) * 256 + bs.getD 3 0)
        :: toWords k (bs.drop 4)

/-- Extend the 16 block words to the 64-word message schedule.  The
accumulator is kept most-recent-first, so `w[i-2]` is `getD 1`, `w[i-7]`
is `getD 6`, `w[i-15]` is `getD 14` and `w[i-16]` is `getD 15`. -/
def extendSchedule : Nat → List Nat → List Nat
  | 0, ws => ws.reverse
  | k + 1, ws =>
      extendSchedule k
        (((ssig1 (ws.getD 1 0) + ws.getD 6 0 + ssig0 (ws.getD 14 0) + ws.getD 15 0) % 4294967296)
          :: ws)

/-- The eight 32-bit working variables of the compression function. -/
abbrev Sha256State := Nat × Nat × Nat × Nat × Nat × Nat × Nat × Nat

/-- One SHA-256 round, consuming one (round constant, schedule word) pair. -/
def sha256Round (st : Sha256State) (kw : Nat × Nat) : Sha256State :=
  match st, kw with
  | (a, b, c, d, e, f, g, h), (k, w) =>
      let t1 := (h + bsig1 e + chF e f g + k + w) % 4294967296
      let t2 := (bsig0 a + majF a b c) % 4294967296
      ((t1 + t2) % 4294967296, a, b, c, (d + t1) % 4294967296, e, f, g)

/-- Compress one 64-byte block into the running state. -/
def sha256Block (st : Sha256State) (block : List Nat) : Sha256State :=
  let ws := extendSchedule 48 (toWords 16 block).reverse
  match st, (sha256K.zip ws).foldl sha256Round st with
  | (h0, h1, h2, h3, h4, h5, h6, h7), (a, b, c, d, e, f, g, h) =>
      ((h0 + a) % 4294967296, (h1 + b) % 4294967296, (h2 + c) % 4294967296,
       (h3 + d) % 4294967296, (h4 + e) % 4294967296, (h5 + f) % 4294967296,
       (h6 + g) % 4294967296, (h7 + h) % 4294967296)

/-- Process `k` consecutive 64-byte blocks. -/
def sha256Blocks : Nat → Sha256State → List Nat → Sha256State
  | 0, st, _ => st
  | k + 1, st, msg => sha256Blocks k (sha256Block st (msg.take 64)) (msg.drop 64)

/-- FIPS 180-4 padding: a `0x80` byte, zeros to 56 mod 64, then the
bit length as 8 big-endian bytes. -/
def sha256Pad (msg : List Nat) : List Nat :=
  msg ++ 128 :: List.replicate ((119 - msg.length % 64) % 64) 0 ++ beBytes 8 (msg.length * 8)

/-- SHA-256 of a byte list, as the 32-byte digest.  Models Go's
`crypto/sha256.Sum256`. -/
def sha256 (msg : List Nat) : List Nat :=
  let padded := sha256Pad msg
  match sha256Blocks (padded.length / 64) (1779033703, 3144134277, 1013904242, 2773480762,
      1359893119, 2600822924, 528734635, 1541459225) padded with
  | (h0, h1, h2, h3, h4, h5, h6, h7) =>
      beBytes 4 h0 ++ beBytes 4 h1 ++ beBytes 4 h2 ++ beBytes 4 h3 ++
      beBytes 4 h4 ++ beBytes 4 h5 ++ beBytes 4 h6 ++ beBytes 4 h7

/-- ASCII code of the lowercase hex digit of `n < 16`. -/
def hexDigit (n : Nat) : Nat := if n < 10 then 48 + n else 87 + n

/-- ASCII codes of the lowercase hex encoding of a byte list.  Models Go's
`encoding/hex.EncodeToString` (the result is again a byte/character list,
matching our modelling of Go strings). -/
def hexBytes (bs : List Nat) : List Nat :=
  bs.foldr (fun b acc => hexDigit (b / 16) :: hexDigit (b % 16) :: acc) []

-- FIPS 180-4 test vectors, checking the SHA-256 model.
example : sha256 [] =
    [0xe3, 0xb0, 0xc4, 0x42, 0x98, 0xfc, 0x1c, 0x14, 0x9a, 0xfb, 0xf4, 0xc8, 0x99, 0x6f, 0xb9,
     0x24, 0x27, 0xae, 0x41, 0xe4, 0x64, 0x9b, 0x93, 0x4c, 0xa4, 0x95, 0x99, 0x1b, 0x78, 0x52,
     0xb8, 0x55] := by decide

example : sha256 [97, 98, 99] =
    [0xba, 0x78, 0x16, 0xbf, 0x8f, 0x01, 0xcf, 0xea, 0x41, 0x41, 0x40, 0xde, 0x5d, 0xae, 0x22,
     0x23, 0xb0, 0x03, 0x61, 0xa3, 0x96, 0x17, 0x7a, 0x9c, 0xb4, 0x10, 0xff, 0x61, 0xf2, 0x00,
     0x15, 0xad] := by decide

/-- Models `hashData` from `merkle.go`: SHA-256 of the item's bytes,
hex-encoded into a string. -/
def hashData (data : List Nat) : List Nat := hexBytes (sha256 data)

/-- Models `hashNodes` from `merkle.go`: the two node strings are
concatenated (`left + right`), the concatenation is converted to its
bytes, hashed with SHA-256, and the digest is hex-encoded.  Note that the
node strings are themselves hex encodings, so this hashes the 128 ASCII
bytes of the two hex representations. -/
def hashNodes (left right : List Nat) : List Nat := hexBytes (sha256 (left ++ right))

/-- One `n |= n >> k` line of the source's bit smearing. -/
def orShift (k m : Nat) : Nat := m ||| (m >>> k)

/-- Models `nextPowerOfTwo` from `merkle.go`.  The argument is a slice
length, hence non-negative; Go's `n <= 0` guard becomes `n = 0`.  The
bit-smearing shifts are exactly the source's `1, 2, 4, 8, 16`. -/
def nextPowerOfTwo (n : Nat) : Nat :=
  if n = 0 then 1
  else orShift 16 (orShift 8 (orShift 4 (orShift 2 (orShift 1 (n - 1))))) + 1

/-- Models the `Tree[T]` struct (instantiated at byte-list data). -/
structure Tree where
  Nodes : List (List Nat)
  LeafData : List (List Nat)
  LeafOffset : Nat
  LeafCount : Nat
deriving DecidableEq, Repr

/-- The body of the first loop of `NewTree` (iteration `i`): a real item
is hashed into `Nodes[leafOffset+i]`; a padding slot copies the value
currently stored for the last real leaf. -/
def leafStep (data : List (List Nat)) (leafOffset leafCount : Nat)
    (ns : List (List Nat)) (i : Nat) : List (List Nat) :=
  if i < leafCount then ns.set (leafOffset + i) (hashData (data.getD i []))
  else ns.set (leafOffset + i) (ns.getD (leafOffset + leafCount - 1) [])

/-- The first loop of `NewTree`: `for i := 0; i < paddedLeafCount; i++`. -/
def buildLeaves (data : List (List Nat)) (leafOffset leafCount paddedLeafCount : Nat)
    (nodes : List (List Nat)) : List (List Nat) :=
  (List.range paddedLeafCount).foldl (leafStep data leafOffset leafCount) nodes

/-- The body of the second loop of `NewTree` (iteration `i`):
`Nodes[i] = hashNodes(Nodes[2i+1], Nodes[2i+2])`. -/
def internalStep (ns : List (List Nat)) (i : Nat) : List (List Nat) :=
  ns.set i (hashNodes (ns.getD (2 * i + 1) []) (ns.getD (2 * i + 2) []))

/-- The second loop of `NewTree`: `for i := leafOffset - 1; i >= 0; i--`. -/
def buildInternal (leafOffset : Nat) (nodes : List (List Nat)) : List (List Nat) :=
  ((List.range leafOffset).reverse).foldl internalStep nodes

/-- Models `NewTree` from `merkle.go`.  The Go error return becomes
`Option`: `none` models the `"cannot create tree with empty data"` error. -/
def NewTree (data : List (List Nat)) : Option Tree :=
  if data.length = 0 then none
  else
    let leafCount := data.length
    let paddedLeafCount := nextPowerOfTwo leafCount
    let totalNodes := paddedLeafCount * 2 - 1
    let leafOffset := paddedLeafCount - 1
    let nodes0 := List.replicate totalNodes ([] : List Nat)
    let nodes1 := buildLeaves data leafOffset leafCount paddedLeafCount nodes0
    some { Nodes := buildInternal leafOffset nodes1
           LeafData := data
           LeafOffset := leafOffset
           LeafCount := leafCount }

/-- Models `GetRoot`. -/
def GetRoot (t : Tree) : List Nat :=
  if t.Nodes.length = 0 then [] else t.Nodes.getD 0 []

/-- The `for currentIndex > 0` loop of `GetProof`: collect the sibling of
the current node and move to the parent. -/
def proofLoop (nodes : List (List Nat)) (j : Nat) : List (List Nat) :=
  if j = 0 then []
  else (nodes.getD (if j % 2 = 1 then j + 1 else j - 1) []) :: proofLoop nodes ((j - 1) / 2)
termination_by j
decreasing_by
  have h2 : (j - 1) / 2 ≤ j - 1 := Nat.div_le_self _ _
  omega

/-- The sequence of sibling indices read from `Nodes` by the `GetProof`
walk starting at flat index `j` (the loop's data-access trace; see
`proofLoop_eq_map`). -/
def sibIndices (j : Nat) : List Nat :=
  if j = 0 then []
  else (if j % 2 = 1 then j + 1 else j - 1) :: sibIndices ((j - 1) / 2)
termination_by j
decreasing_by
  have h2 : (j - 1) / 2 ≤ j - 1 := Nat.div_le_self _ _
  omega

/-- Iterating the parent step `currentIndex = (currentIndex - 1) / 2` of
the `GetProof` loop `k` times. -/
def iterParent : Nat → Nat → Nat
  | 0, j => j
  | k + 1, j => iterParent k ((j - 1) / 2)

/-- The proof values collected by the walk are exactly the `Nodes` entries
at the positions listed by `sibIndices`. -/
theorem proofLoop_eq_map (nodes : List (List Nat)) (j : Nat) :
    proofLoop nodes j = (sibIndices j).map (fun s => nodes.getD s []) := by
  induction j using Nat.strong_induction_on with
  | _ j ih =>
    unfold proofLoop sibIndices
    by_cases hj : j = 0
    · simp [hj]
    · have hlt : (j - 1) / 2 < j := by
        have h2 : (j - 1) / 2 ≤ j - 1 := Nat.div_le_self _ _
        omega
      simp [hj, ih _ hlt]

theorem proofLoop_length (nodes : List (List Nat)) (j : Nat) :
    (proofLoop nodes j).length = (sibIndices j).length := by
  rw [proofLoop_eq_map, List.length_map]

/-- The walk from flat index `j` with `2 ^ k ≤ j + 1 < 2 ^ (k + 1)` takes
exactly `k` steps. -/
theorem sibIndices_length_pow (k : Nat) :
    ∀ j, 2 ^ k ≤ j + 1 → j + 1 < 2 ^ (k + 1) → (sibIndices j).length = k := by
  induction k with
  | zero =>
    intro j h1 h2
    have hj : j = 0 := by omega
    subst hj
    unfold sibIndices
    rfl
  | succ k ih =>
    intro j h1 h2
    have p1 : 2 ^ (k + 1) = 2 * 2 ^ k := by
      rw [Nat.pow_succ]
      omega
    have p2 : 2 ^ (k + 1 + 1) = 2 * 2 ^ (k + 1) := by
      rw [Nat.pow_succ 2 (k + 1)]
      omega
    have hk : 1 ≤ 2 ^ k := Nat.one_le_two_pow
    have hj : j ≠ 0 := by omega
    unfold sibIndices
    rw [if_neg hj]
    simp only [List.length_cons]
    rw [ih ((j - 1) / 2) (by omega) (by omega)]

/-- All sibling indices of a walk starting at or below `2 * B` stay at or
below `2 * B` (the odd/left case `j + 1` cannot exceed an even bound). -/
theorem sibIndices_le (B : Nat) : ∀ j, j ≤ 2 * B → ∀ s ∈ sibIndices j, s ≤ 2 * B := by
  intro j
  induction j using Nat.strong_induction_on with
  | _ j ih =>
    intro hjB s hs
    unfold sibIndices at hs
    by_cases hj : j = 0
    · rw [if_pos hj] at hs
      simp at hs
    · rw [if_neg hj] at hs
      have hlt : (j - 1) / 2 < j := by
        have h2 : (j - 1) / 2 ≤ j - 1 := Nat.div_le_self _ _
        omega
      rcases List.mem_cons.mp hs with h | h
      · subst h
        split
        · next hodd => omega
        · omega
      · exact ih _ hlt (by omega) s h

/-- The walk terminates: after exactly `(sibIndices j).length` parent
steps the current index is `0` (the loop guard `currentIndex > 0` fails). -/
theorem iterParent_sibIndices : ∀ j, iterParent (sibIndices j).length j = 0 := by
  intro j
  induction j using Nat.strong_induction_on with
  | _ j ih =>
    by_cases hj : j = 0
    · subst hj
      unfold sibIndices
      rfl
    · have hlt : (j - 1) / 2 < j := by
        have h2 : (j - 1) / 2 ≤ j - 1 := Nat.div_le_self _ _
        omega
      unfold sibIndices
      rw [if_neg hj]
      simp only [List.length_cons]
      exact ih _ hlt

/-- Models `GetProof`.  `index` is a Go `int`, so it is an `Int` here;
`none` models the `"index out of range"` error. -/
def GetProof (t : Tree) (index : Int) : Option (List (List Nat)) :=
  if index < 0 ∨ (t.LeafCount : Int) ≤ index then none
  else some (proofLoop t.Nodes (t.LeafOffset + index.toNat))

/-- The `for _, siblingHash := range proof` loop of `VerifyProof`.  Go's
`%` and `/` on `int` truncate towards zero, hence `Int.tmod`/`Int.tdiv`. -/
def verifyLoop (hash : List Nat) (proof : List (List Nat)) (index : Int) : List Nat :=
  match proof with
  | [] => hash
  | s :: rest =>
      verifyLoop (if Int.tmod index 2 = 0 then hashNodes hash s else hashNodes s hash)
        rest (Int.tdiv index 2)

/-- Models `VerifyProof`. -/
def VerifyProof (data : List Nat) (proof : List (List Nat)) (rootHash : List Nat)
    (index : Int) : Bool :=
  verifyLoop (hashData data) proof index == rootHash

-- Fidelity check: the captured `make bench` output in the package README
-- prints the tree built from ["a", "b", "c", "d"] with root 58c89d70...
-- and children 62af5c3c... and d3a0f1c7...; the model reproduces all
-- three values (this pins down the hex-string concatenation behaviour of
-- hashNodes against real output of the Go code).

example :
    (NewTree [[97], [98], [99], [100]]).map GetRoot =
      some (hexBytes [0x58, 0xc8, 0x9d, 0x70, 0x93, 0x29, 0xeb, 0x37, 0x28, 0x58, 0x37, 0xb0,
        0x42, 0xab, 0x6f, 0xf7, 0x2c, 0x7c, 0x8f, 0x74, 0xde, 0x04, 0x46, 0xb0, 0x91, 0xb6,
        0xa0, 0x13, 0x1c, 0x10, 0x2c, 0xfd]) := by decide


example :
    (NewTree [[97], [98], [99], [100]]).map (fun t => (t.Nodes.getD 1 [], t.Nodes.getD 2 [])) =
      some
        (hexBytes [0x62, 0xaf, 0x5c, 0x3c, 0xb8, 0xda, 0x3e, 0x4f, 0x25, 0x06, 0x1e, 0x82, 0x9e,
          0xbe, 0xea, 0x5c, 0x75, 0x13, 0xc5, 0x49, 0x49, 0x11, 0x5b, 0x1a, 0xcc, 0x22, 0x59,
          0x30, 0xa9, 0x01, 0x54, 0xda],
         hexBytes [0xd3, 0xa0, 0xf1, 0xc7, 0x92, 0xcc, 0xf7, 0xf1, 0x70, 0x8d, 0x54, 0x22, 0x69,
          0x62, 0x63, 0xe3, 0x57, 0x55, 0xa8, 0x69, 0x17, 0xea, 0x76, 0xef, 0x92, 0x42, 0xbd,
          0x4a, 0x8c, 0xf4, 0x89, 0x1a]) := by decide

-- Fidelity check: the README prints the leaf hash of "a" as
-- ca978112... (sha256 of the single byte 0x61).
example :
    hashData [97] =
      hexBytes [0xca, 0x97, 0x81, 0x12, 0xca, 0x1b, 0xbd, 0xca, 0xfa, 0xc2, 0x31, 0xb3, 0x9a,
        0x23, 0xdc, 0x4d, 0xa7, 0x86, 0xef, 0xf8, 0x14, 0x7c, 0x4e, 0x72, 0xb9, 0x80, 0x77,
        0x85, 0xaf, 0xee, 0x48, 0xbb] := by decide

/-! Helper lemmas about `List.set`, `List.getD` and the two build loops. -/

theorem getD_set_ne {l : List (List Nat)} {i j : Nat} (h : i ≠ j) (v : List Nat) :
    (l.set i v).getD j [] = l.getD j [] := by
  simp [List.getD_eq_getElem?_getD, List.getElem?_set_ne h]

theorem getD_set_self {l : List (List Nat)} {i : Nat} (h : i < l.length) (v : List Nat) :
    (l.set i v).getD i [] = v := by
  simp [List.getD_eq_getElem?_getD, List.getElem?_set_self h]

theorem nextPowerOfTwo_pos (n : Nat) : 1 ≤ nextPowerOfTwo n := by
  unfold nextPowerOfTwo
  split
  · exact Nat.le_refl 1
  · exact Nat.succ_le_succ (Nat.zero_le _)

theorem le_lor_left (a b : Nat) : a ≤ a ||| b :=
  Nat.le_of_testBit fun i h => by simp [Nat.testBit_or, h]

theorem le_orShift (k m : Nat) : m ≤ orShift k m := le_lor_left m (m >>> k)

theorem le_nextPowerOfTwo (n : Nat) : n ≤ nextPowerOfTwo n := by
  unfold nextPowerOfTwo
  split
  · omega
  · have h := Nat.le_trans (le_orShift 1 (n - 1))
      (Nat.le_trans (le_orShift 2 _)
        (Nat.le_trans (le_orShift 4 _) (Nat.le_trans (le_orShift 8 _) (le_orShift 16 _))))
    omega

theorem buildLeaves_succ (data : List (List Nat)) (lo lc m : Nat) (ns : List (List Nat)) :
    buildLeaves data lo lc (m + 1) ns = leafStep data lo lc (buildLeaves data lo lc m ns) m := by
  unfold buildLeaves
  rw [List.range_succ, List.foldl_append]
  rfl

theorem buildLeaves_length (data : List (List Nat)) (lo lc m : Nat) (ns : List (List Nat)) :
    (buildLeaves data lo lc m ns).length = ns.length := by
  induction m with
  | zero => rfl
  | succ k ih =>
    rw [buildLeaves_succ]
    unfold leafStep
    split <;> simp [ih]

theorem buildLeaves_getD_lt (data : List (List Nat)) (lo lc m : Nat) (ns : List (List Nat))
    (q : Nat) (hq : q < lo) :
    (buildLeaves data lo lc m ns).getD q [] = ns.getD q [] := by
  induction m with
  | zero => rfl
  | succ k ih =>
    rw [buildLeaves_succ]
    unfold leafStep
    split <;> rw [getD_set_ne (by omega)] <;> exact ih

theorem buildLeaves_getD (data : List (List Nat)) (lo lc : Nat) (hlc : 1 ≤ lc) (m : Nat)
    (ns : List (List Nat)) (hlen : lo + m ≤ ns.length) :
    ∀ i, i < m →
      (buildLeaves data lo lc m ns).getD (lo + i) [] =
        hashData (data.getD (min i (lc - 1)) []) := by
  induction m with
  | zero => omega
  | succ k ih =>
    intro i hi
    rw [buildLeaves_succ]
    unfold leafStep
    rcases Nat.lt_or_ge i k with hik | hik
    · have hne : lo + k ≠ lo + i := by omega
      split <;> rw [getD_set_ne hne] <;> exact ih (by omega) i hik
    · have hik' : i = k := by omega
      subst hik'
      have hlenB : lo + i < (buildLeaves data lo lc i ns).length := by
        rw [buildLeaves_length]
        omega
      split

      · next h =>
        rw [getD_set_self hlenB]
        have : min i (lc - 1) = i := by omega
        rw [this]
      · next h =>
        rw [getD_set_self hlenB]
        have he : lo + lc - 1 = lo + (lc - 1) := by omega
        rw [he, ih (by omega) (lc - 1) (by omega)]
        have h1 : min (lc - 1) (lc - 1) = lc - 1 := by omega
        have h2 : min i (lc - 1) = lc - 1 := by omega
        rw [h1, h2]

theorem buildInternal_succ (m : Nat) (ns : List (List Nat)) :
    buildInternal (m + 1) ns = buildInternal m (internalStep ns m) := by
  unfold buildInternal
  rw [List.range_succ, List.reverse_append]
  rfl

theorem buildInternal_length (m : Nat) (ns : List (List Nat)) :
    (buildInternal m ns).length = ns.length := by
  induction m generalizing ns with
  | zero => rfl
  | succ k ih =>
    rw [buildInternal_succ, ih]
    unfold internalStep
    simp

theorem buildInternal_getD_ge (m : Nat) (j : Nat) :
    ∀ ns : List (List Nat), m ≤ j → (buildInternal m ns).getD j [] = ns.getD j [] := by
  induction m with
  | zero => intro ns _; rfl
  | succ k ih =>
    intro ns h
    rw [buildInternal_succ, ih _ (by omega)]
    unfold internalStep
    rw [getD_set_ne (by omega)]

theorem buildInternal_getD_internal (m : Nat) :
    ∀ ns : List (List Nat), m ≤ ns.length → ∀ j, j < m →
      (buildInternal m ns).getD j [] =
        hashNodes ((buildInternal m ns).getD (2 * j + 1) [])
          ((buildInternal m ns).getD (2 * j + 2) []) := by
  induction m with
  | zero => omega
  | succ k ih =>
    intro ns hm j hj
    rw [buildInternal_succ]
    have hlen : (internalStep ns k).length = ns.length := by
      unfold internalStep
      simp
    rcases Nat.lt_or_ge j k with hjk | hjk
    · exact ih (internalStep ns k) (by omega) j hjk
    · have hj' : j = k := by omega
      subst hj'
      rw [buildInternal_getD_ge j (2 * j + 1) _ (by omega),
        buildInternal_getD_ge j (2 * j + 2) _ (by omega),
        buildInternal_getD_ge j j _ (by omega)]
      unfold internalStep
      rw [getD_set_self (by omega), getD_set_ne (by omega), getD_set_ne (by omega)]

/-- Unfolding of `NewTree` on a non-empty input into its two loops. -/
theorem NewTree_eq_some (d : List (List Nat)) (h : d ≠ []) :
    NewTree d = some
      { Nodes := buildInternal (nextPowerOfTwo d.length - 1)
          (buildLeaves d (nextPowerOfTwo d.length - 1) d.length (nextPowerOfTwo d.length)
            (List.replicate (nextPowerOfTwo d.length * 2 - 1) []))
        LeafData := d
        LeafOffset := nextPowerOfTwo d.length - 1
        LeafCount := d.length } := by
  unfold NewTree
  rw [if_neg (by simpa [List.length_eq_zero] using h)]

/-- C5: the claim says `nextPowerOfTwo` always returns the smallest power
of two that is at least its argument.  The bit-smearing in the source
stops at a 16-bit shift, so it only covers 32-bit values: at the input
`2 ^ 32 + 1 = 4294967297` (reachable as a slice length with 64-bit Go
`int`) the code returns `2 ^ 33 - 1 = 8589934591`, which is not a power
of two at all (the correct answer is `2 ^ 33`), contradicting the
function's own doc comment. -/
theorem nextPowerOfTwo_overflow_bug :
    nextPowerOfTwo 4294967297 = 8589934591 ∧ (∀ k : Nat, 8589934591 ≠ 2 ^ k) ∧
      nextPowerOfTwo 4294967296 = 4294967296 := by
  refine ⟨by decide, ?_, by decide⟩
  intro k
  cases k with
  | zero => decide
  | succ m =>
    intro h
    have h2 : 2 ∣ 2 ^ (m + 1) := dvd_pow_self 2 (Nat.succ_ne_zero m)
    rw [← h] at h2
    omega

/-- C3: in every successfully built tree, each padding leaf slot
`leafOffset + i` with `leafCount ≤ i < paddedLeafCount` holds exactly the
value of the last real leaf slot `leafOffset + leafCount - 1`. -/
theorem padding_slots_duplicate_last_leaf (d : List (List Nat)) (i : Nat) (h1 : d ≠ [])
    (h2 : d.length ≤ i) (h3 : i < nextPowerOfTwo d.length) :
    (NewTree d).map (fun t => t.Nodes.getD (t.LeafOffset + i) []) =
      (NewTree d).map (fun t => t.Nodes.getD (t.LeafOffset + t.LeafCount - 1) []) := by
  have hlc : 1 ≤ d.length := List.length_pos.mpr h1
  have hp := nextPowerOfTwo_pos d.length
  rw [NewTree_eq_some d h1]
  simp only [Option.map_some', Option.some.injEq]
  set p := nextPowerOfTwo d.length with hpdef
  set lo := p - 1 with hlodef
  set lc := d.length with hlcdef
  set ns0 := List.replicate (p * 2 - 1) ([] : List Nat) with hns0
  set B := buildLeaves d lo lc p ns0 with hB
  show (buildInternal lo B).getD (lo + i) [] = (buildInternal lo B).getD (lo + lc - 1) []
  have hlen0 : ns0.length = p * 2 - 1 := List.length_replicate _ _
  have hlen : lo + p ≤ ns0.length := by
    rw [hlen0]
    omega
  have e1 := buildInternal_getD_ge lo (lo + i) B (by omega)
  have e2 : lo + lc - 1 = lo + (lc - 1) := by omega
  have e3 := buildInternal_getD_ge lo (lo + (lc - 1)) B (by omega)
  have f1 := buildLeaves_getD d lo lc hlc p ns0 hlen i h3
  have f2 := buildLeaves_getD d lo lc hlc p ns0 hlen (lc - 1) (by omega)
  have m1 : min i (lc - 1) = lc - 1 := by omega
  have m2 : min (lc - 1) (lc - 1) = lc - 1 := by omega
  rw [e1, e2, e3, f1, f2, m1, m2]

/-- Witness for C3 at the concrete input ["a", "b", "c"] and padding slot
index 3 (the single padding slot of the 4-slot padded leaf level). -/
theorem padding_slots_duplicate_last_leaf_witness :
    (([[97], [98], [99]] : List (List Nat)) ≠ [] ∧
        ([[97], [98], [99]] : List (List Nat)).length ≤ 3 ∧
        3 < nextPowerOfTwo ([[97], [98], [99]] : List (List Nat)).length) ∧
      (NewTree [[97], [98], [99]]).map (fun t => t.Nodes.getD (t.LeafOffset + 3) []) =
        (NewTree [[97], [98], [99]]).map
          (fun t => t.Nodes.getD (t.LeafOffset + t.LeafCount - 1) []) :=
  ⟨⟨by decide, by decide, by decide⟩,
    padding_slots_duplicate_last_leaf [[97], [98], [99]] 3 (by decide) (by decide) (by decide)⟩

/-- C1: the claim says every internal node holds the hash of the
concatenation of its children's raw 32-byte digests.  The code instead
concatenates the children's 64-character hex string representations
before hashing.  At the README's own example input ["a", "b", "c", "d"]
the code's root (58c89d70..., also visible in the README's captured
bench output) differs from the raw-digest-concatenation root, and the
raw-digest-concatenation root is exactly the root the README documents
in its Quick Start section (14ede5e8...). -/
theorem internal_nodes_hash_hex_not_raw :
    ((NewTree [[97], [98], [99], [100]]).map GetRoot) =
        some (hashNodes (hashNodes (hashData [97]) (hashData [98]))
          (hashNodes (hashData [99]) (hashData [100]))) ∧
      ((NewTree [[97], [98], [99], [100]]).map GetRoot) ≠
        some (hexBytes (sha256 (sha256 (sha256 [97] ++ sha256 [98]) ++
          sha256 (sha256 [99] ++ sha256 [100])))) ∧
      hexBytes (sha256 (sha256 (sha256 [97] ++ sha256 [98]) ++
          sha256 (sha256 [99] ++ sha256 [100]))) =
        hexBytes [0x14, 0xed, 0xe5, 0xe8, 0xe9, 0x7a, 0xd9, 0x37, 0x23, 0x27, 0x72, 0x8f, 0x50,
          0x99, 0xb9, 0x56, 0x04, 0xa3, 0x95, 0x93, 0xca, 0xc3, 0xbd, 0x38, 0xa3, 0x43, 0xad,
          0x76, 0x20, 0x52, 0x13, 0xe7] :=
  ⟨by decide, by decide, by decide⟩

/-- C6: `NewTree` fails exactly on the empty input (and then produces no
tree); every non-empty input builds a tree. -/
theorem NewTree_none_iff_empty (d : List (List Nat)) : NewTree d = none ↔ d = [] := by
  unfold NewTree
  split
  · simp_all [List.length_eq_zero]
  · simp_all [List.length_eq_zero]

/-- C7: `GetProof` fails exactly when the index is negative or at least
the unpadded leaf count, and on failure it returns no proof at all. -/
theorem GetProof_none_iff_out_of_range (t : Tree) (index : Int) :
    GetProof t index = none ↔ (index < 0 ∨ (t.LeafCount : Int) ≤ index) := by
  unfold GetProof
  split <;> simp_all

/-- C8: `VerifyProof` is a total boolean function: for every data item,
proof list, root and (possibly negative) index it returns a boolean, and
a mismatch between the recombined chain and the expected root surfaces as
the value `false`, never as an error. -/
theorem VerifyProof_total (d : List Nat) (pf : List (List Nat)) (r : List Nat) (i : Int) :
    (VerifyProof d pf r i = true ∧ verifyLoop (hashData d) pf i = r) ∨
      (VerifyProof d pf r i = false ∧ verifyLoop (hashData d) pf i ≠ r) := by
  unfold VerifyProof
  by_cases h : verifyLoop (hashData d) pf i = r
  · left
    simp [h]
  · right
    simp [h]

/-- C9: for every successfully built tree and valid leaf index, the
`GetProof` walk reads `Nodes` exactly at the positions `sibIndices`,
every one of those positions is inside the `Nodes` array, and iterating
the parent step once per collected sibling brings the current index to
`0` (the loop terminates at the root). -/
theorem getProof_walk_safe (d : List (List Nat)) (i : Nat) (h1 : d ≠ []) (h2 : i < d.length) :
    ((NewTree d).bind fun t => GetProof t (i : Int)) =
        ((NewTree d).map fun t =>
          (sibIndices (t.LeafOffset + i)).map fun s => t.Nodes.getD s []) ∧
      ((NewTree d).map fun t =>
          (sibIndices (t.LeafOffset + i)).all fun s => decide (s < t.Nodes.length)) =
        some true ∧
      ((NewTree d).map fun t =>
          iterParent (sibIndices (t.LeafOffset + i)).length (t.LeafOffset + i)) =
        some 0 := by
  have hp := nextPowerOfTwo_pos d.length
  have hle := le_nextPowerOfTwo d.length
  rw [NewTree_eq_some d h1]
  simp only [Option.some_bind, Option.map_some', Option.some.injEq]
  set p := nextPowerOfTwo d.length with hpdef
  set N := buildInternal (p - 1)
    (buildLeaves d (p - 1) d.length p (List.replicate (p * 2 - 1) ([] : List Nat))) with hN
  have hNlen : N.length = p * 2 - 1 := by
    rw [hN, buildInternal_length, buildLeaves_length, List.length_replicate]
  refine ⟨?_, ?_, ?_⟩
  · unfold GetProof
    rw [if_neg (by
      simp only [not_or, not_lt, not_le]
      exact ⟨Int.natCast_nonneg i, by exact_mod_cast h2⟩)]
    simp only [Int.toNat_natCast]
    rw [proofLoop_eq_map]
  · rw [List.all_eq_true]
    intro s hs
    rw [decide_eq_true_eq]
    have hb : s ≤ 2 * (p - 1) :=
      sibIndices_le (p - 1) (p - 1 + i) (by omega) s hs
    omega
  · exact iterParent_sibIndices _

/-- Witness for C9 at the concrete input ["a", "b", "c"] and index 2. -/
theorem getProof_walk_safe_witness :
    (([[97], [98], [99]] : List (List Nat)) ≠ [] ∧
        2 < ([[97], [98], [99]] : List (List Nat)).length) ∧
      (((NewTree [[97], [98], [99]]).bind fun t => GetProof t ((2 : Nat) : Int)) =
          ((NewTree [[97], [98], [99]]).map fun t =>
            (sibIndices (t.LeafOffset + 2)).map fun s => t.Nodes.getD s []) ∧
        ((NewTree [[97], [98], [99]]).map fun t =>
            (sibIndices (t.LeafOffset + 2)).all fun s => decide (s < t.Nodes.length)) =
          some true ∧
        ((NewTree [[97], [98], [99]]).map fun t =>
            iterParent (sibIndices (t.LeafOffset + 2)).length (t.LeafOffset + 2)) =
          some 0) :=
  ⟨⟨by decide, by decide⟩, getProof_walk_safe [[97], [98], [99]] 2 (by decide) (by decide)⟩

/-- C4: the claim says every proof has exactly `log2 paddedLeafCount`
entries.  Because of the `nextPowerOfTwo` overflow bug, the input of
length `2 ^ 32 + 1` yields `paddedLeafCount = 2 ^ 33 - 1` (not a power of
two), and proof lengths then differ between indices of the same tree:
index `0` gets 32 siblings while index `2 ^ 32` gets 33, so no single
`log2 paddedLeafCount` value matches the claim. -/
theorem proof_length_bug :
    ((NewTree (List.replicate 4294967297 ([] : List Nat))).map fun t =>
        ((GetProof t 0).map List.length, (GetProof t 4294967296).map List.length)) =
      some (some 32, some 33) := by
  have hne : (List.replicate 4294967297 ([] : List Nat)) ≠ [] := by
    intro h
    have h2 := congrArg List.length h
    rw [List.length_replicate] at h2
    simp at h2
  rw [NewTree_eq_some _ hne]
  simp only [Option.map_some', List.length_replicate, Option.some.injEq]
  have hq : nextPowerOfTwo 4294967297 = 8589934591 := by decide
  rw [hq]
  unfold GetProof
  dsimp only
  rw [if_neg (by omega), if_neg (by omega)]
  simp only [Option.map_some', Int.toNat_zero]
  have ht : Int.toNat 4294967296 = 4294967296 := rfl
  rw [ht, proofLoop_length, proofLoop_length]
  have e1 : (8589934591 - 1 + 0 : Nat) = 8589934590 := by norm_num
  have e2 : (8589934591 - 1 + 4294967296 : Nat) = 12884901886 := by norm_num
  rw [e1, e2]
  rw [sibIndices_length_pow 32 8589934590 (by norm_num) (by norm_num),
    sibIndices_length_pow 33 12884901886 (by norm_num) (by norm_num)]

/-- C2: the claim says the left/right combination order of verification
(parity of the halved leaf index) mirrors the left/right determination of
generation (parity of the flat array index) at every level.  At input
length `2 ^ 32 + 1` the `nextPowerOfTwo` bug makes `leafOffset` even
(`2 ^ 33 - 2`), so leaf index `0` sits at an even flat index: generation
treats it as a right child (the first collected sibling is the left
neighbour `Nodes[leafOffset - 1]`, and its parent was built as
`hashNodes sibling leaf`), while verification at even index `0` combines
`hashNodes leaf sibling` (third conjunct), i.e. in the opposite order, so
the recombined chain does not rebuild the root (barring a SHA-256
collision) and the round-trip fails. -/
theorem roundtrip_parity_bug :
    (((NewTree (List.replicate 4294967297 ([] : List Nat))).bind fun t => GetProof t 0).map
        fun pf => pf.headD []) =
        ((NewTree (List.replicate 4294967297 ([] : List Nat))).map fun t =>
          t.Nodes.getD (t.LeafOffset - 1) []) ∧
      ((NewTree (List.replicate 4294967297 ([] : List Nat))).map fun t =>
          t.Nodes.getD ((t.LeafOffset - 1) / 2) []) =
        ((NewTree (List.replicate 4294967297 ([] : List Nat))).map fun t =>
          hashNodes (t.Nodes.getD (t.LeafOffset - 1) []) (t.Nodes.getD t.LeafOffset [])) ∧
      verifyLoop (hashData []) [hashData [97]] 0 = hashNodes (hashData []) (hashData [97]) := by
  have hne : (List.replicate 4294967297 ([] : List Nat)) ≠ [] := by
    intro h
    have h2 := congrArg List.length h
    rw [List.length_replicate] at h2
    simp at h2
  rw [NewTree_eq_some _ hne]
  simp only [Option.some_bind, Option.map_some', List.length_replicate, Option.some.injEq]
  have hq : nextPowerOfTwo 4294967297 = 8589934591 := by decide
  rw [hq]
  refine ⟨?_, ?_, rfl⟩
  · unfold GetProof
    dsimp only
    rw [if_neg (by omega)]
    simp only [Option.map_some', Int.toNat_zero, Option.some.injEq]
    unfold proofLoop
    rw [if_neg (by norm_num)]
    rw [if_neg (by norm_num), List.headD_cons]
  · dsimp only
    have hint := buildInternal_getD_internal (8589934591 - 1)
      (buildLeaves (List.replicate 4294967297 ([] : List Nat)) (8589934591 - 1) 4294967297
        8589934591 (List.replicate (8589934591 * 2 - 1) ([] : List Nat)))
      (by rw [buildLeaves_length, List.length_replicate]; norm_num) 4294967294 (by norm_num)
    have e1 : (8589934591 - 1 - 1 : Nat) / 2 = 4294967294 := by norm_num
    have e2 : (2 * 4294967294 + 1 : Nat) = 8589934591 - 1 - 1 := by norm_num
    have e3 : (2 * 4294967294 + 2 : Nat) = 8589934591 - 1 := by norm_num
    rw [e2, e3] at hint
    rw [e1, hint]

/-- One step of the verification loop (Go also halves the index after
the combine). -/
theorem verifyLoop_cons (h s : List Nat) (rest : List (List Nat)) (idx : Int) :
    verifyLoop h (s :: rest) idx =
      verifyLoop (if Int.tmod idx 2 = 0 then hashNodes h s else hashNodes s h) rest
        (Int.tdiv idx 2) := rfl

theorem tmod_two_coe (i : Nat) : Int.tmod (i : Int) 2 = ((i % 2 : Nat) : Int) := rfl

theorem tdiv_two_coe (i : Nat) : Int.tdiv (i : Int) 2 = ((i / 2 : Nat) : Int) := rfl

/-- Core of the round-trip argument for a complete tree of `2 ^ k`
leaves: if every index below `2 ^ k - 1` satisfies the internal-node
equation, then recombining the collected siblings while halving the leaf
index rebuilds the root. -/
theorem verifyLoop_chain (nodes : List (List Nat)) :
    ∀ k, (∀ j, j < 2 ^ k - 1 →
        nodes.getD j [] = hashNodes (nodes.getD (2 * j + 1) []) (nodes.getD (2 * j + 2) [])) →
      ∀ i, i < 2 ^ k →
        verifyLoop (nodes.getD (2 ^ k - 1 + i) []) (proofLoop nodes (2 ^ k - 1 + i)) (i : Int) =
          nodes.getD 0 [] := by
  intro k
  induction k with
  | zero =>
    intro _ i hi
    have h1 : (2 : Nat) ^ 0 = 1 := by norm_num
    have hi0 : i = 0 := by omega
    subst hi0
    have e : (2 : Nat) ^ 0 - 1 + 0 = 0 := by omega
    rw [e]
    have hpl : proofLoop nodes 0 = [] := by
      unfold proofLoop
      rw [if_pos rfl]
    rw [hpl]
    rfl
  | succ k ih =>
    intro hyp i hi
    have p1 : (2 : Nat) ^ (k + 1) = 2 * 2 ^ k := by
      rw [Nat.pow_succ]
      omega
    have hk1 : (1 : Nat) ≤ 2 ^ k := Nat.one_le_two_pow
    set j := 2 ^ (k + 1) - 1 + i with hj
    have hjne : j ≠ 0 := by omega
    unfold proofLoop
    rw [if_neg hjne]
    have hj2 : (j - 1) / 2 = 2 ^ k - 1 + i / 2 := by omega
    rcases Nat.mod_two_eq_zero_or_one i with hi2 | hi2
    · have hjodd : j % 2 = 1 := by omega
      rw [if_pos hjodd, verifyLoop_cons, tmod_two_coe, hi2]
      rw [if_pos (by norm_num)]
      have hpar := hyp ((j - 1) / 2) (by omega)
      have c1 : 2 * ((j - 1) / 2) + 1 = j := by omega
      have c2 : 2 * ((j - 1) / 2) + 2 = j + 1 := by omega
      rw [c1, c2] at hpar
      rw [← hpar, tdiv_two_coe, hj2]
      exact ih (fun q hq => hyp q (by omega)) (i / 2) (by omega)
    · have hjeven : ¬j % 2 = 1 := by omega
      rw [if_neg hjeven, verifyLoop_cons, tmod_two_coe, hi2]
      rw [if_neg (by norm_num)]
      have hpar := hyp ((j - 1) / 2) (by omega)
      have c1 : 2 * ((j - 1) / 2) + 1 = j - 1 := by omega
      have c2 : 2 * ((j - 1) / 2) + 2 = j := by omega
      rw [c1, c2] at hpar
      rw [← hpar, tdiv_two_coe, hj2]
      exact ih (fun q hq => hyp q (by omega)) (i / 2) (by omega)

/-- Round-trip law in the regime where `nextPowerOfTwo` behaves (its
result is an actual power of two, which holds for every input length up
to `2 ^ 32`): verifying item `i` with its generated proof against the
tree's root and index `i` succeeds.  Together with
`roundtrip_parity_bug` this isolates the failure of the round-trip claim
to the `nextPowerOfTwo` overflow inputs. -/
theorem roundtrip_pow2 (d : List (List Nat)) (k : Nat) (hpow : nextPowerOfTwo d.length = 2 ^ k)
    (h1 : d ≠ []) (i : Nat) (hi : i < d.length) (t : Tree) (ht : NewTree d = some t)
    (pf : List (List Nat)) (hpf : GetProof t (i : Int) = some pf) :
    VerifyProof (d.getD i []) pf (GetRoot t) (i : Int) = true := by
  have hlc : 1 ≤ d.length := List.length_pos.mpr h1
  have hk1 : (1 : Nat) ≤ 2 ^ k := Nat.one_le_two_pow
  have hle := le_nextPowerOfTwo d.length
  rw [NewTree_eq_some d h1, hpow] at ht
  injection ht with ht
  subst ht
  unfold GetProof at hpf
  rw [if_neg (by
    simp only [not_or, not_lt, not_le]
    exact ⟨Int.natCast_nonneg i, by exact_mod_cast hi⟩)] at hpf
  simp only [Int.toNat_natCast, Option.some.injEq] at hpf
  subst hpf
  set B := buildLeaves d (2 ^ k - 1) d.length (2 ^ k)
    (List.replicate (2 ^ k * 2 - 1) ([] : List Nat)) with hB
  set N := buildInternal (2 ^ k - 1) B with hN
  have hBlen : B.length = 2 ^ k * 2 - 1 := by
    rw [hB, buildLeaves_length, List.length_replicate]
  have hNlen : N.length = 2 ^ k * 2 - 1 := by
    rw [hN, buildInternal_length, hBlen]
  have hroot : GetRoot
      { Nodes := N, LeafData := d, LeafOffset := 2 ^ k - 1, LeafCount := d.length } =
      N.getD 0 [] := by
    unfold GetRoot
    rw [if_neg (by
      dsimp only
      omega)]
  have hleaf : N.getD (2 ^ k - 1 + i) [] = hashData (d.getD i []) := by
    rw [hN, buildInternal_getD_ge _ _ _ (by omega), hB,
      buildLeaves_getD d (2 ^ k - 1) d.length hlc (2 ^ k)
        (List.replicate (2 ^ k * 2 - 1) ([] : List Nat)) (by rw [List.length_replicate]; omega)
        i (by omega)]
    have hmin : min i (d.length - 1) = i := by omega
    rw [hmin]
  have hint : ∀ q, q < 2 ^ k - 1 →
      N.getD q [] = hashNodes (N.getD (2 * q + 1) []) (N.getD (2 * q + 2) []) := by
    intro q hq
    exact buildInternal_getD_internal (2 ^ k - 1) B (by omega) q hq
  have hchain := verifyLoop_chain N k hint i (by omega)
  unfold VerifyProof
  rw [hroot]
  rw [← hleaf, hchain]
  exact beq_self_eq_true _

-- Executable round-trip sanity check on the three-leaf tree (leaves
-- a, b, c and the duplicated padding leaf c): item 2 with its sibling
-- list (the duplicated leaf hash, then the hash of the a/b pair)
-- verifies against the root produced by NewTree.
example :
    ((NewTree [[97], [98], [99]]).map fun t =>
        VerifyProof [99] [hashData [99], hashNodes (hashData [97]) (hashData [98])]
          (GetRoot t) 2) =
      some true := by decide

/-- C10: with an empty proof the index argument is never consulted:
`VerifyProof d [] r i` is `true` exactly when the hash of `d` equals `r`,
for every integer index `i`. -/
theorem VerifyProof_nil_ignores_index (d r : List Nat) (i : Int) :
    VerifyProof d [] r i = (hashData d == r) := rfl

end Merkle
